import Mathlib

/-!
Shallow embedding of the time-allocation engine of `wtttoday.py` (single-file
study planner): interval algebra (`merge_intervals`, `subtract_intervals`),
the adaptive break sizer (`compute_adaptive_break`), the greedy backward-filling
daily scheduler (`ScheduleEngine.plan`), the planner-panel validation wrapper
(`generate`) and the multi-day share computation (`_get_tasks_for_day`).

Conventions of the embedding:
* Python `int` is `Int`; Python `//` (floor division) is `Int.fdiv`, `%` is
  `Int.emod` (all moduli in the source are positive, where the two agree).
* Python float arithmetic (only in the `tired_mult` line of
  `compute_adaptive_break`) is modeled as exact rational arithmetic:
  `1.0 + (tired / 10.0) * 0.75` is exactly `(40 + 3 * tired) / 40`, and
  `int(...)` is truncation toward zero, so the scaled budget is the
  trunc-toward-zero division `truncDiv (max_break * (40 + 3 * tired)) 40`.
* ISO date strings (`date_iso`, the keys of the day store) are modeled as
  absolute day numbers (`Int`); `datetime.strptime` is a bijection from valid
  ISO dates onto day numbers and `(d1 - d2).days` is plain subtraction.
* Python's stable `sort`/`sorted` on tuples is `List.insertionSort` with the
  lexicographic `≤` of the corresponding tuple type (a stable sort; for the
  total preorders used here the result coincides with CPython's).
* The `while remaining > 0` placement loop is embedded with explicit fuel
  (`planLoopFuel`); `minutes_needed.toNat + 1` units of fuel are provably
  sufficient (`planLoopFuel_halts`), so `plan` below is extensionally the
  Python loop.
-/

/-- `Lecture` dataclass of the source. -/
structure Lecture where
  course : String
  start_min : Int
  end_min : Int
deriving DecidableEq, Repr

/-- `WorkItem` dataclass of the source; `date_num` models the ISO due-date
string `date_iso` as an absolute day number. -/
structure WorkItem where
  course : String
  title : String
  date_num : Int
  due_min : Int
  minutes_needed : Int
  prepared : Bool
  repeat_weekly : Bool
deriving DecidableEq, Repr

/-- `PlanBlock` dataclass of the source. -/
structure PlanBlock where
  start_min : Int
  end_min : Int
  label : String
  kind : String
  course : String
  manual : Bool
deriving DecidableEq, Repr

/-- Python string `<` (code-point lexicographic) on character lists. -/
def charListLt : List Char → List Char → Bool
  | [], [] => false
  | [], _ :: _ => true
  | _ :: _, [] => false
  | a :: as, b :: bs => if a < b then true else if b < a then false else charListLt as bs

/-- Python string `<` (code-point lexicographic). -/
def pyStrLt (s t : String) : Bool := charListLt s.data t.data

/-- Python tuple `≤` on pairs of ints (used by `blocks.sort()`). -/
def pairLe (a b : Int × Int) : Prop :=
  a.1 < b.1 ∨ (a.1 = b.1 ∧ a.2 ≤ b.2)

instance : DecidableRel pairLe := fun a b =>
  decidable_of_iff (a.1 < b.1 ∨ (a.1 = b.1 ∧ a.2 ≤ b.2)) Iff.rfl

instance : IsTotal (Int × Int) pairLe := ⟨by intro a b; unfold pairLe; omega⟩

instance : IsTrans (Int × Int) pairLe := ⟨by intro a b c; unfold pairLe; omega⟩

/-- Python tuple `≤` on the `(dist, -(span), seg)` triples scored by
`choose_free_segments`. -/
def scoreLe (a b : Int × Int × (Int × Int)) : Prop :=
  a.1 < b.1 ∨ (a.1 = b.1 ∧ (a.2.1 < b.2.1 ∨ (a.2.1 = b.2.1 ∧ pairLe a.2.2 b.2.2)))

instance : DecidableRel scoreLe := fun a b =>
  decidable_of_iff
    (a.1 < b.1 ∨ (a.1 = b.1 ∧ (a.2.1 < b.2.1 ∨ (a.2.1 = b.2.1 ∧ pairLe a.2.2 b.2.2)))) Iff.rfl

instance : IsTotal (Int × Int × (Int × Int)) scoreLe :=
  ⟨by intro a b; unfold scoreLe pairLe; omega⟩

instance : IsTrans (Int × Int × (Int × Int)) scoreLe :=
  ⟨by intro a b c; unfold scoreLe pairLe; omega⟩

/-- Python tuple `≤` on `(start, end, label)` busy triples (used by
`sorted(intervals)` in `merge_intervals` and `sorted(busy)` in `plan`). -/
def busyLe (a b : Int × Int × String) : Prop :=
  a.1 < b.1 ∨ (a.1 = b.1 ∧ (a.2.1 < b.2.1 ∨ (a.2.1 = b.2.1 ∧
    (pyStrLt a.2.2 b.2.2 = true ∨ a.2.2 = b.2.2))))

instance : DecidableRel busyLe := fun a b =>
  decidable_of_iff
    (a.1 < b.1 ∨ (a.1 = b.1 ∧ (a.2.1 < b.2.1 ∨ (a.2.1 = b.2.1 ∧
      (pyStrLt a.2.2 b.2.2 = true ∨ a.2.2 = b.2.2))))) Iff.rfl

/-- The sort key `(w.due_min, -w.minutes_needed)` of `pending.sort` in `plan`,
as a `≤` relation on work items. -/
def workLe (a b : WorkItem) : Prop :=
  a.due_min < b.due_min ∨ (a.due_min = b.due_min ∧ -a.minutes_needed ≤ -b.minutes_needed)

instance : DecidableRel workLe := fun a b =>
  decidable_of_iff
    (a.due_min < b.due_min ∨ (a.due_min = b.due_min ∧ -a.minutes_needed ≤ -b.minutes_needed))
    Iff.rfl

/-- `fmt_min_to_time` of the source. -/
def fmt_min_to_time (mn : Int) : String :=
  let mn := Int.emod mn (24 * 60)
  let hh := Int.fdiv mn 60
  let mm := Int.emod mn 60
  let suf := if hh < 12 then "AM" else "PM"
  let h12 := if 1 ≤ hh ∧ hh ≤ 12 then hh else if hh = 0 ∨ hh = 12 then 12 else hh - 12
  toString h12 ++ ":" ++ (if mm < 10 then "0" else "") ++ toString mm ++ " " ++ suf

/-- The accumulation loop of `ScheduleEngine.merge_intervals`: `cur` is the
current last element of `out`. -/
def mergeGo (cur : Int × Int × String) : List (Int × Int × String) → List (Int × Int × String)
  | [] => [cur]
  | (s, e, l) :: rest =>
      if s ≤ cur.2.1 then mergeGo (cur.1, max cur.2.1 e, cur.2.2) rest
      else cur :: mergeGo (s, e, l) rest

/-- `ScheduleEngine.merge_intervals` of the source. -/
def merge_intervals (intervals : List (Int × Int × String)) : List (Int × Int × String) :=
  match List.insertionSort busyLe intervals with
  | [] => []
  | x :: xs => mergeGo x xs

/-- The left-to-right complement scan of `ScheduleEngine.subtract_intervals`
(the `for s,e in blocks` loop plus the trailing segment). -/
def scanFree (endB : Int) : Int → List (Int × Int) → List (Int × Int)
  | cur, [] => if cur < endB then [(cur, endB)] else []
  | cur, (s, e) :: rest =>
      let gap : List (Int × Int) := if cur < s then [(cur, s)] else []
      let cur' := max cur e
      if endB ≤ cur' then gap
      else gap ++ scanFree endB cur' rest

/-- `ScheduleEngine.subtract_intervals` of the source. -/
def subtract_intervals (start stop : Int) (busy : List (Int × Int × String)) :
    List (Int × Int) :=
  let blocks := (busy.map fun b => (max start b.1, min stop b.2.1)).filter
    fun b => decide (b.1 < b.2)
  if blocks = [] then [(start, stop)]
  else scanFree stop start (List.insertionSort pairLe blocks)

/-- Truncation-toward-zero division of `p` by a positive `q`: Python `int()`
applied to the exact rational `p / q`. -/
def truncDiv (p q : Int) : Int := if 0 ≤ p then p / q else -((-p) / q)

/-- `ScheduleEngine.compute_adaptive_break` of the source. The float
computation `int(max_break * (1.0 + (tired / 10.0) * 0.75))` is modeled as
exact rational arithmetic: the multiplier is exactly `(40 + 3 * tired) / 40`,
so `int(...)` of the product is `truncDiv (max_break * (40 + 3 * tired)) 40`. -/
def compute_adaptive_break (remaining_after current_end window_end max_break tired
    min_gap_between_study : Int) : Int :=
  let slack := max 0 (window_end - current_end - remaining_after)
  let max_break := truncDiv (max_break * (40 + 3 * tired)) 40
  let base := max min_gap_between_study 0
  if max_break ≤ 0 ∨ slack ≤ 5 then base
  else if slack ≤ 20 then max base (min 10 max_break)
  else if slack ≤ 40 then max base (min 15 max_break)
  else max base (min max_break (max 20 (Int.fdiv slack 3)))

/-- `choose_free_segments` (the local ranking function inside
`ScheduleEngine.plan`). -/
def choose_free_segments (free : List (Int × Int)) (due_min : Int) : List (Int × Int) :=
  let scored := free.map fun p => (abs (due_min - p.2), -(p.2 - p.1), p)
  (List.insertionSort scoreLe scored).map fun x => x.2.2

/-- The `for fs,fe in reversed(ordered)` search of the placement loop: the
first segment surviving both `continue` guards (positive span, positive
allocation). Applied below to the reversed ranking. -/
def findPlace (block_size remaining : Int) : List (Int × Int) → Option (Int × Int)
  | [] => none
  | (fs, fe) :: rest =>
      if fe - fs ≤ 0 then findPlace block_size remaining rest
      else if min block_size (min remaining (fe - fs)) ≤ 0 then
        findPlace block_size remaining rest
      else some (fs, fe)

/-- The study-block label `f"Study: {course} — {title}"`. -/
def studyLabel (w : WorkItem) : String := "Study: " ++ w.course ++ " — " ++ w.title

/-- One iteration of the `while remaining > 0` body of `ScheduleEngine.plan`:
`none` when the loop exits now (no free segment, or nothing placed), otherwise
the next `(remaining, window_end, plan_blocks, lines)` state. The break size is
computed eagerly (the source computes it under `remaining > 0`, which here
guards the append; `compute_adaptive_break` is pure, so this is the same). -/
def planIter (ws block_size brkMax tired mg : Int) (busy : List (Int × Int × String))
    (w : WorkItem) (rem we : Int) (blocks : List PlanBlock) (lines : List String) :
    Option (Int × Int × List PlanBlock × List String) :=
  let free := subtract_intervals ws we
    (busy ++ blocks.map fun b => (b.start_min, b.end_min, b.label))
  if free = [] then none
  else
    match findPlace block_size rem (choose_free_segments free w.due_min).reverse with
    | none => none
    | some (fs, fe) =>
      let alloc := min block_size (min rem (fe - fs))
      let st := fe - alloc
      let rem1 := rem - alloc
      let brk := compute_adaptive_break rem1 st we brkMax tired mg
      let bstart := max ws (st - brk)
      let breakBlocks : List PlanBlock :=
        if 0 < rem1 ∧ 0 < brk ∧ bstart < st then [⟨bstart, st, "Break", "break", "", false⟩]
        else []
      let breakLines : List String :=
        if 0 < rem1 ∧ 0 < brk ∧ bstart < st then
          [fmt_min_to_time bstart ++ " - " ++ fmt_min_to_time st ++ "  Break"]
        else []
      some (rem1, st,
        blocks ++ [⟨st, fe, studyLabel w, "study", w.course, false⟩] ++ breakBlocks,
        lines ++ [fmt_min_to_time st ++ " - " ++ fmt_min_to_time fe ++ "  " ++ studyLabel w]
          ++ breakLines)

/-- The `while remaining > 0` loop of `ScheduleEngine.plan`, with explicit
fuel; `none` means the fuel ran out (shown impossible for
`remaining.toNat + 1` units in `planLoopFuel_halts`). Returns the final
`(plan_blocks, lines, remaining)`. -/
def planLoopFuel (ws block_size brkMax tired mg : Int) (busy : List (Int × Int × String))
    (w : WorkItem) :
    Nat → Int → Int → List PlanBlock → List String →
    Option (List PlanBlock × List String × Int)
  | 0, _, _, _, _ => none
  | Nat.succ n, rem, we, blocks, lines =>
    if rem ≤ 0 then some (blocks, lines, rem)
    else
      match planIter ws block_size brkMax tired mg busy w rem we blocks lines with
      | none => some (blocks, lines, rem)
      | some (rem1, we1, blocks1, lines1) =>
        planLoopFuel ws block_size brkMax tired mg busy w n rem1 we1 blocks1 lines1

/-- The warning line of `plan` for a task with an empty window. -/
def noWindowLine (w : WorkItem) : String :=
  "⚠ No window left before " ++ fmt_min_to_time w.due_min ++ " for " ++
    w.course ++ " — " ++ w.title

/-- The warning line of `plan` for a task left with unmet minutes. -/
def shortfallLine (w : WorkItem) (rem : Int) : String :=
  "⚠ Not enough time before " ++ fmt_min_to_time w.due_min ++ " for " ++
    w.course ++ " — " ++ w.title ++ ": " ++ toString rem ++ " min left"

/-- `ScheduleEngine` state: day bounds plus the optional current-time horizon. -/
structure ScheduleEngine where
  day_start : Int
  day_end : Int
  now_min : Option Int
deriving DecidableEq, Repr

/-- The per-task body of the `for w in pending` loop of `ScheduleEngine.plan`
(window computation, placement loop, shortfall reporting), threading the
`(plan_blocks, lines)` accumulator. -/
def processTask (self : ScheduleEngine) (block_size brkMax tired mg : Int)
    (busy : List (Int × Int × String)) (start_bound : Int)
    (acc : List PlanBlock × List String) (w : WorkItem) : List PlanBlock × List String :=
  let ws := start_bound
  let we := min self.day_end w.due_min
  if we ≤ ws then (acc.1, acc.2 ++ [noWindowLine w])
  else
    match planLoopFuel ws block_size brkMax tired mg busy w
        (w.minutes_needed.toNat + 1) w.minutes_needed we acc.1 acc.2 with
    | none => (acc.1, acc.2)
    | some (blocks, lines, rem) =>
      if 0 < rem then (blocks, lines ++ [shortfallLine w rem]) else (blocks, lines)

/-- Python `s.startswith(p)` on the character lists of the two strings. -/
def charsBeginWith : List Char → List Char → Bool
  | [], _ => true
  | _ :: _, [] => false
  | p :: ps, c :: cs => if p = c then charsBeginWith ps cs else false

/-- Python `s.startswith(p)`. -/
def pyStartsWith (s p : String) : Bool := charsBeginWith p.data s.data

/-- Strips the first occurrence of `"Lecture: "` from a lecture label
(`label.replace("Lecture: ", "", 1)`; every label reaching this point starts
with that nine-character piece, where replacing its first occurrence is
dropping the first nine characters). -/
def stripLectureLabel (label : String) : String :=
  if pyStartsWith label "Lecture: " then String.mk (label.data.drop 9) else label

/-- The body of the `for s,e,label in sorted(busy)` loop at the end of `plan`:
appends a display line and a `lecture` block for each busy triple whose label
starts with `"Lecture"`. -/
def lectureAppend (acc : List PlanBlock × List String) (t : Int × Int × String) :
    List PlanBlock × List String :=
  if pyStartsWith t.2.2 "Lecture" then
    (acc.1 ++ [⟨t.1, t.2.1, t.2.2, "lecture", stripLectureLabel t.2.2, false⟩],
     acc.2 ++ [fmt_min_to_time t.1 ++ " - " ++ fmt_min_to_time t.2.1 ++ "  " ++ t.2.2])
  else acc

/-- `ScheduleEngine.plan` after the `tired` clamp (everything from the busy-set
construction to the returned `(plan_blocks, trace)`), taking the already
clamped `tired`. -/
def plan_core (self : ScheduleEngine) (lectures : List Lecture) (work : List WorkItem)
    (block_size max_break : Int) (adaptive_breaks : Bool) (tired : Int)
    (lecture_buffer_min min_gap_between_study : Int) : List PlanBlock × String :=
  let busy := merge_intervals (lectures.filterMap fun lec =>
    let s := max self.day_start (lec.start_min - lecture_buffer_min)
    let e := min self.day_end (lec.end_min + lecture_buffer_min)
    if s < e then some (s, e, "Lecture: " ++ lec.course) else none)
  let start_bound := self.now_min.getD self.day_start
  let pending := List.insertionSort workLe (work.filter fun w => !w.prepared)
  let brkMax := if adaptive_breaks then max_break else 0
  let mg := min_gap_between_study + tired * 3
  let state := pending.foldl (processTask self block_size brkMax tired mg busy start_bound)
    ([], [])
  let lines1 := state.2 ++ ["\n— Today’s Fixed Items —"]
  let final := (List.insertionSort busyLe busy).foldl lectureAppend (state.1, lines1)
  (final.1, String.intercalate "\n" final.2)

/-- `ScheduleEngine.plan` of the source; its first statement clamps `tired`
into `[1, 10]`. -/
def ScheduleEngine.plan (self : ScheduleEngine) (lectures : List Lecture)
    (work : List WorkItem) (block_size max_break : Int) (adaptive_breaks : Bool)
    (tired : Int) (lecture_buffer_min min_gap_between_study : Int) :
    List PlanBlock × String :=
  plan_core self lectures work block_size max_break adaptive_breaks
    (max 1 (min 10 tired)) lecture_buffer_min min_gap_between_study

/-- `ScheduleEngine.__init__`: raises `ValueError` when
`day_start >= day_end`, modeled as `Except`. -/
def ScheduleEngine.init (day_start day_end : Int) (now_min : Option Int) :
    Except String ScheduleEngine :=
  if day_end ≤ day_start then Except.error "Day start must be before day end."
  else Except.ok ⟨day_start, day_end, now_min⟩

/-- The scheduling-call path of `PlannerPanel.generate`: the configuration
validation, engine construction and `plan` invocation (GUI rendering and
persistence stripped; lectures and day tasks are the values its callbacks
would return). An exception propagating to the `except` clause is `error`. -/
def generate (day_start day_end block max_break tired : Int) (now_min : Option Int)
    (lectures : List Lecture) (tasks_today : List WorkItem) :
    Except String (List PlanBlock × String) :=
  if ¬(0 ≤ day_start ∧ day_start < day_end ∧ day_end ≤ 24 * 60) then
    Except.error "Day start must be before end"
  else if block ≤ 0 ∨ max_break < 0 then Except.error "Block>0, MaxBreak≥0"
  else
    match ScheduleEngine.init day_start day_end now_min with
    | Except.error e => Except.error e
    | Except.ok eng =>
      Except.ok (eng.plan lectures tasks_today block max_break true tired 30 10)

/-- `previously_planned_minutes` (the history lookup inside
`App._get_tasks_for_day`): total duration of study blocks with the exact label
`"Study: {course} — {title}"` on days strictly before `cur`. The day store is
a list of `(day number, committed plan)` pairs. -/
def previously_planned_minutes (days : List (Int × List PlanBlock)) (cur : Int)
    (course title : String) : Int :=
  days.foldl (fun total d =>
    if d.1 < cur then
      d.2.foldl (fun t pb =>
        if pb.kind = "study" ∧ pb.label = "Study: " ++ course ++ " — " ++ title then
          t + max 0 (pb.end_min - pb.start_min)
        else t) total
    else total) 0

/-- The per-item body of the `for w in self.week.export()` loop of
`App._get_tasks_for_day`: the day-scoped view of one catalog item, or `none`
when the item contributes nothing today. -/
def task_share_for_day (days : List (Int × List PlanBlock)) (cur : Int) (w : WorkItem) :
    Option WorkItem :=
  if w.prepared then none
  else
    let total := w.minutes_needed
    let remaining := max 0 (total - previously_planned_minutes days cur w.course w.title)
    if remaining = 0 then none
    else
      let days_until := w.date_num - cur
      if days_until < 0 then
        some ⟨w.course, w.title, w.date_num, 23 * 60 + 59, remaining, false, w.repeat_weekly⟩
      else if days_until = 0 then
        some ⟨w.course, w.title, w.date_num, w.due_min, remaining, false, w.repeat_weekly⟩
      else
        let parts := if days_until = 1 then 2 else days_until
        let share := max 1 (Int.fdiv (remaining + parts - 1) parts)
        some ⟨w.course, w.title, w.date_num, 23 * 60 + 59, share, false, w.repeat_weekly⟩

/-- `App._get_tasks_for_day` of the source. -/
def get_tasks_for_day (days : List (Int × List PlanBlock)) (week_tasks : List WorkItem)
    (cur : Int) : List WorkItem :=
  week_tasks.filterMap (task_share_for_day days cur)

/-- Disjointness demanded of two study blocks: whenever both have kind
`"study"`, their `[start, end)` intervals do not intersect. -/
def studyDisjoint (a b : PlanBlock) : Prop :=
  a.kind = "study" → b.kind = "study" →
    (a.end_min ≤ b.start_min ∨ b.end_min ≤ a.start_min)

instance : DecidableRel studyDisjoint := fun a b =>
  decidable_of_iff
    (a.kind = "study" → b.kind = "study" →
      (a.end_min ≤ b.start_min ∨ b.end_min ≤ a.start_min)) Iff.rfl

/-! ### Properties of the complement scan and of `subtract_intervals` -/

lemma scanFree_mem {endB : Int} {l : List (Int × Int)} :
    ∀ {cur : Int}, (∀ b ∈ l, b.1 < b.2 ∧ b.2 ≤ endB) →
      ∀ seg ∈ scanFree endB cur l, cur ≤ seg.1 ∧ seg.2 ≤ endB ∧ seg.1 < seg.2 := by
  induction l with
  | nil =>
    intro cur _ seg hseg
    by_cases h : cur < endB <;> simp only [scanFree, h, if_pos, if_neg, if_true, if_false] at hseg
    · rcases List.mem_singleton.mp hseg with rfl
      exact ⟨le_refl _, le_refl _, h⟩
    · simp at hseg
  | cons b rest ih =>
    intro cur hl seg hseg
    obtain ⟨s, e⟩ := b
    have hhead := hl (s, e) (List.mem_cons_self _ _)
    have htail : ∀ b ∈ rest, b.1 < b.2 ∧ b.2 ≤ endB :=
      fun b hb => hl b (List.mem_cons_of_mem _ hb)
    simp only [scanFree] at hseg
    have hgap : ∀ seg ∈ (if cur < s then [((cur : Int), s)] else []),
        cur ≤ seg.1 ∧ seg.2 ≤ endB ∧ seg.1 < seg.2 := by
      intro seg hseg
      split at hseg
      · rcases List.mem_singleton.mp hseg with rfl
        simp only
        omega
      · simp at hseg
    split at hseg
    · exact hgap seg hseg
    · rcases List.mem_append.mp hseg with h | h
      · exact hgap seg h
      · have := ih htail seg h
        omega

lemma scanFree_disjoint {endB : Int} {l : List (Int × Int)} :
    ∀ {cur : Int}, (∀ b ∈ l, b.1 < b.2 ∧ b.2 ≤ endB) →
      List.Pairwise (fun a b : Int × Int => a.1 ≤ b.1) l →
      ∀ seg ∈ scanFree endB cur l, ∀ b ∈ l, seg.2 ≤ b.1 ∨ b.2 ≤ seg.1 := by
  induction l with
  | nil => intro cur _ _ seg _ b hb; simp at hb
  | cons hd rest ih =>
    intro cur hl hsort seg hseg b hb
    obtain ⟨s, e⟩ := hd
    have htail : ∀ b ∈ rest, b.1 < b.2 ∧ b.2 ≤ endB :=
      fun b hb => hl b (List.mem_cons_of_mem _ hb)
    have hsort' := (List.pairwise_cons.mp hsort).2
    have hfirst := (List.pairwise_cons.mp hsort).1
    simp only [scanFree] at hseg
    have hgap : ∀ seg ∈ (if cur < s then [((cur : Int), s)] else []),
        ∀ b ∈ (s, e) :: rest, seg.2 ≤ b.1 ∨ b.2 ≤ seg.1 := by
      intro seg hseg b hb
      split at hseg
      · rcases List.mem_singleton.mp hseg with rfl
        rcases List.mem_cons.mp hb with rfl | hb
        · left; exact le_refl _
        · left; exact hfirst b hb
      · simp at hseg
    split at hseg
    · exact hgap seg hseg b hb
    · rcases List.mem_append.mp hseg with h | h
      · exact hgap seg h b hb
      · have hbounds := scanFree_mem htail seg h
        rcases List.mem_cons.mp hb with rfl | hb
        · right
          have : e ≤ max cur e := le_max_right _ _
          omega
        · exact ih htail hsort' seg h b hb

lemma scanFree_cover {endB : Int} {l : List (Int × Int)} :
    ∀ {cur : Int} {x : Int}, cur ≤ x → x < endB →
      (∃ seg ∈ scanFree endB cur l, seg.1 ≤ x ∧ x < seg.2) ∨
      (∃ b ∈ l, b.1 ≤ x ∧ x < b.2) := by
  induction l with
  | nil =>
    intro cur x hx hxe
    left
    refine ⟨(cur, endB), ?_, hx, hxe⟩
    simp only [scanFree, if_pos (lt_of_le_of_lt hx hxe)]
    exact List.mem_singleton.mpr rfl
  | cons hd rest ih =>
    intro cur x hx hxe
    obtain ⟨s, e⟩ := hd
    simp only [scanFree]
    by_cases hxs : x < s
    · -- covered by the gap, which is present since cur ≤ x < s
      have hgap : cur < s := lt_of_le_of_lt hx hxs
      left
      by_cases hb2 : endB ≤ max cur e
      · rw [if_pos hb2, if_pos hgap]
        exact ⟨(cur, s), List.mem_singleton.mpr rfl, hx, hxs⟩
      · rw [if_neg hb2, if_pos hgap]
        exact ⟨(cur, s), List.mem_append.mpr (Or.inl (List.mem_singleton.mpr rfl)), hx, hxs⟩
    · by_cases hxe' : x < e
      · right
        exact ⟨(s, e), List.mem_cons_self _ _, le_of_not_lt hxs, hxe'⟩
      · -- x ≥ e and x ≥ s, so the cursor advances past the head without passing x
        have hcur' : max cur e ≤ x := max_le hx (le_of_not_lt hxe')
        have hnb : ¬ endB ≤ max cur e := fun h => absurd hxe (not_lt.mpr (le_trans h hcur'))
        rw [if_neg hnb]
        rcases ih hcur' hxe with ⟨seg, hseg, hx1, hx2⟩ | ⟨b, hb, hx1, hx2⟩
        · exact Or.inl ⟨seg, List.mem_append.mpr (Or.inr hseg), hx1, hx2⟩
        · exact Or.inr ⟨b, List.mem_cons_of_mem _ hb, hx1, hx2⟩

lemma scanFree_pairwise {endB : Int} {l : List (Int × Int)} :
    ∀ {cur : Int}, (∀ b ∈ l, b.1 < b.2 ∧ b.2 ≤ endB) →
      List.Pairwise (fun a b : Int × Int => a.2 ≤ b.1) (scanFree endB cur l) := by
  induction l with
  | nil =>
    intro cur _
    by_cases h : cur < endB <;> simp [scanFree, h]
  | cons hd rest ih =>
    intro cur hl
    obtain ⟨s, e⟩ := hd
    have hhead := hl (s, e) (List.mem_cons_self _ _)
    have htail : ∀ b ∈ rest, b.1 < b.2 ∧ b.2 ≤ endB :=
      fun b hb => hl b (List.mem_cons_of_mem _ hb)
    simp only [scanFree]
    split
    · split
      · simp
      · simp
    · apply List.pairwise_append.mpr
      refine ⟨?_, ih htail, ?_⟩
      · split
        · simp
        · simp
      · intro a ha b hb
        have hbb := scanFree_mem htail b hb
        split at ha
        · rcases List.mem_singleton.mp ha with rfl
          simp only
          omega
        · simp at ha

lemma subtract_blocks_prop {s e : Int} {busy : List (Int × Int × String)} :
    ∀ b ∈ List.insertionSort pairLe
        (((busy.map fun b => (max s b.1, min e b.2.1)).filter fun b => decide (b.1 < b.2))),
      b.1 < b.2 ∧ b.2 ≤ e := by
  intro b hb
  have hb' := (List.mem_insertionSort pairLe).mp hb
  obtain ⟨hmem, hpos⟩ := List.mem_filter.mp hb'
  obtain ⟨c, _, rfl⟩ := List.mem_map.mp hmem
  refine ⟨of_decide_eq_true hpos, min_le_left _ _⟩

lemma subtract_blocks_sorted {s e : Int} {busy : List (Int × Int × String)} :
    List.Pairwise (fun a b : Int × Int => a.1 ≤ b.1)
      (List.insertionSort pairLe
        (((busy.map fun b => (max s b.1, min e b.2.1)).filter fun b => decide (b.1 < b.2)))) := by
  have hs := List.sorted_insertionSort pairLe
    (((busy.map fun b => (max s b.1, min e b.2.1)).filter fun b => decide (b.1 < b.2)))
  exact hs.imp (fun h => by unfold pairLe at h; omega)

lemma subtract_bounds {s e : Int} {busy : List (Int × Int × String)} :
    ∀ seg ∈ subtract_intervals s e busy, s ≤ seg.1 ∧ seg.2 ≤ e := by
  intro seg hseg
  simp only [subtract_intervals] at hseg
  split at hseg
  · rcases List.mem_singleton.mp hseg with rfl
    exact ⟨le_refl _, le_refl _⟩
  · have := scanFree_mem subtract_blocks_prop seg hseg
    exact ⟨this.1, this.2.1⟩

lemma subtract_pos {s e : Int} {busy : List (Int × Int × String)} (h : s < e) :
    ∀ seg ∈ subtract_intervals s e busy, seg.1 < seg.2 := by
  intro seg hseg
  simp only [subtract_intervals] at hseg
  split at hseg
  · rcases List.mem_singleton.mp hseg with rfl
    exact h
  · exact (scanFree_mem subtract_blocks_prop seg hseg).2.2

lemma subtract_disjoint_busy {s e : Int} {busy : List (Int × Int × String)} :
    ∀ seg ∈ subtract_intervals s e busy, ∀ b ∈ busy, ∀ x : Int,
      seg.1 ≤ x → x < seg.2 → max s b.1 ≤ x → x < min e b.2.1 → False := by
  intro seg hseg b hb x hx1 hx2 hx3 hx4
  have hclip : (max s b.1, min e b.2.1) ∈
      ((busy.map fun b => (max s b.1, min e b.2.1)).filter fun b => decide (b.1 < b.2)) := by
    refine List.mem_filter.mpr ⟨List.mem_map.mpr ⟨b, hb, rfl⟩, decide_eq_true ?_⟩
    exact lt_of_le_of_lt hx3 hx4
  simp only [subtract_intervals] at hseg
  split at hseg
  · next hempty =>
    rw [hempty] at hclip
    simp at hclip
  · have hdisj := scanFree_disjoint subtract_blocks_prop subtract_blocks_sorted seg hseg
      (max s b.1, min e b.2.1) ((List.mem_insertionSort pairLe).mpr hclip)
    simp only at hdisj
    omega

lemma subtract_cover {s e : Int} {busy : List (Int × Int × String)} {x : Int}
    (hx1 : s ≤ x) (hx2 : x < e) :
    (∃ seg ∈ subtract_intervals s e busy, seg.1 ≤ x ∧ x < seg.2) ∨
    (∃ b ∈ busy, max s b.1 ≤ x ∧ x < min e b.2.1) := by
  simp only [subtract_intervals]
  split
  · exact Or.inl ⟨(s, e), List.mem_singleton.mpr rfl, hx1, hx2⟩
  · rcases scanFree_cover hx1 hx2 with ⟨seg, hseg, h1, h2⟩ | ⟨c, hc, h1, h2⟩
    · exact Or.inl ⟨seg, hseg, h1, h2⟩
    · have hc' := (List.mem_insertionSort pairLe).mp hc
      obtain ⟨hmem, _⟩ := List.mem_filter.mp hc'
      obtain ⟨b, hb, rfl⟩ := List.mem_map.mp hmem
      exact Or.inr ⟨b, hb, h1, h2⟩

lemma subtract_pairwise {s e : Int} {busy : List (Int × Int × String)} :
    List.Pairwise (fun a b : Int × Int => a.2 ≤ b.1) (subtract_intervals s e busy) := by
  simp only [subtract_intervals]
  split
  · simp
  · exact scanFree_pairwise subtract_blocks_prop

/-- C6. For `start < end`, `subtract_intervals` returns segments of strictly
positive length that are sorted and pairwise non-overlapping (each segment
ends no later than the next begins), and a minute `x` lies in `[start, end)`
exactly when it lies in a returned free segment or in one of the busy
intervals clipped to `[start, end)`. -/
theorem subtract_intervals_spec (s e : Int) (busy : List (Int × Int × String))
    (h : s < e) :
    (∀ seg ∈ subtract_intervals s e busy, seg.1 < seg.2) ∧
    List.Pairwise (fun a b : Int × Int => a.2 ≤ b.1) (subtract_intervals s e busy) ∧
    (∀ x : Int, (s ≤ x ∧ x < e) ↔
      ((∃ seg ∈ subtract_intervals s e busy, seg.1 ≤ x ∧ x < seg.2) ∨
       (∃ b ∈ busy, max s b.1 ≤ x ∧ x < min e b.2.1))) := by
  refine ⟨subtract_pos h, subtract_pairwise, fun x => ⟨fun hx => subtract_cover hx.1 hx.2, ?_⟩⟩
  rintro (⟨seg, hseg, h1, h2⟩ | ⟨b, _, h1, h2⟩)
  · have := subtract_bounds seg hseg
    omega
  · constructor
    · exact le_trans (le_max_left _ _) h1
    · exact lt_of_lt_of_le h2 (min_le_left _ _)

/-- Witness for C6 at a concrete input. -/
theorem subtract_intervals_spec_witness :
    (0 : Int) < 100 ∧
    (∀ seg ∈ subtract_intervals 0 100 [(10, 50, "x")], seg.1 < seg.2) ∧
    List.Pairwise (fun a b : Int × Int => a.2 ≤ b.1) (subtract_intervals 0 100 [(10, 50, "x")]) ∧
    (∀ x : Int, ((0 : Int) ≤ x ∧ x < 100) ↔
      ((∃ seg ∈ subtract_intervals 0 100 [(10, 50, "x")], seg.1 ≤ x ∧ x < seg.2) ∨
       (∃ b ∈ [((10 : Int), (50 : Int), "x")], max 0 b.1 ≤ x ∧ x < min 100 b.2.1))) :=
  ⟨by decide, subtract_intervals_spec 0 100 [(10, 50, "x")] (by decide)⟩

/-! ### Properties of the segment ranking and of the placement search -/

lemma findPlace_pos {b r : Int} :
    ∀ {l : List (Int × Int)} {fs fe : Int}, findPlace b r l = some (fs, fe) →
      0 < fe - fs ∧ 0 < min b (min r (fe - fs)) := by
  intro l
  induction l with
  | nil => intro fs fe h; simp [findPlace] at h
  | cons hd rest ih =>
    intro fs fe h
    obtain ⟨s, e⟩ := hd
    simp only [findPlace] at h
    split at h
    · exact ih h
    · split at h
      · exact ih h
      · obtain ⟨rfl, rfl⟩ := Prod.mk.inj (Option.some.inj h)
        omega

lemma findPlace_mem {b r : Int} :
    ∀ {l : List (Int × Int)} {seg : Int × Int}, findPlace b r l = some seg → seg ∈ l := by
  intro l
  induction l with
  | nil => intro seg h; simp [findPlace] at h
  | cons hd rest ih =>
    intro seg h
    obtain ⟨s, e⟩ := hd
    simp only [findPlace] at h
    split at h
    · exact List.mem_cons_of_mem _ (ih h)
    · split at h
      · exact List.mem_cons_of_mem _ (ih h)
      · rcases Option.some.inj h with rfl
        exact List.mem_cons_self _ _

lemma findPlace_isSome {b r : Int} (hb : 0 < b) (hr : 0 < r) :
    ∀ {l : List (Int × Int)}, (∃ g ∈ l, 0 < g.2 - g.1) → (findPlace b r l).isSome := by
  intro l
  induction l with
  | nil => rintro ⟨g, hg, _⟩; simp at hg
  | cons hd rest ih =>
    rintro ⟨g, hg, hgpos⟩
    obtain ⟨s, e⟩ := hd
    simp only [findPlace]
    by_cases hspan : e - s ≤ 0
    · rw [if_pos hspan]
      rcases List.mem_cons.mp hg with rfl | hg'
      · simp only at hgpos; omega
      · exact ih ⟨g, hg', hgpos⟩
    · rw [if_neg hspan, if_neg (by omega)]
      rfl

lemma choose_free_segments_perm (free : List (Int × Int)) (due : Int) :
    (choose_free_segments free due).Perm free := by
  have h3 : ∀ l : List (Int × Int),
      (l.map fun p => ((abs (due - p.2), -(p.2 - p.1), p) : Int × Int × (Int × Int))).map
        (fun x => x.2.2) = l := by
    intro l
    induction l with
    | nil => rfl
    | cons a t iht => rw [List.map_cons, List.map_cons, iht]
  have h1 := List.perm_insertionSort scoreLe
    (free.map fun p => ((abs (due - p.2), -(p.2 - p.1), p) : Int × Int × (Int × Int)))
  have h2 := h1.map fun x : Int × Int × (Int × Int) => x.2.2
  rw [h3 free] at h2
  simpa only [choose_free_segments] using h2

lemma choose_scored_shape {free : List (Int × Int)} {due : Int} :
    ∀ x ∈ List.insertionSort scoreLe
        (free.map fun p => (abs (due - p.2), -(p.2 - p.1), p)),
      x.1 = abs (due - x.2.2.2) ∧ x.2.1 = -(x.2.2.2 - x.2.2.1) := by
  intro x hx
  have hx' := (List.mem_insertionSort scoreLe).mp hx
  obtain ⟨p, _, rfl⟩ := List.mem_map.mp hx'
  exact ⟨rfl, rfl⟩

lemma findPlace_rev_spec {b r due : Int} (hb : 0 < b) (hr : 0 < r) :
    ∀ (rev : List (Int × Int × (Int × Int))),
      (∀ x ∈ rev, x.1 = abs (due - x.2.2.2) ∧ x.2.1 = -(x.2.2.2 - x.2.2.1)) →
      List.Pairwise (fun a c => scoreLe c a) rev →
      ∀ fs fe, findPlace b r (rev.map fun x => x.2.2) = some (fs, fe) →
        ((fs, fe) ∈ rev.map fun x => x.2.2) ∧ 0 < fe - fs ∧
        ∀ gs ge, ((gs, ge) ∈ rev.map fun x => x.2.2) → 0 < ge - gs →
          (abs (due - ge) ≤ abs (due - fe) ∧
           (abs (due - ge) = abs (due - fe) → fe - fs ≤ ge - gs)) := by
  intro rev
  induction rev with
  | nil => intro _ _ fs fe h; simp [findPlace] at h
  | cons x xs ih =>
    intro hshape hpair fs fe h
    obtain ⟨d, ns, u, v⟩ := x
    have hxshape := hshape (d, ns, u, v) (List.mem_cons_self _ _)
    simp only at hxshape
    have hxsshape : ∀ y ∈ xs, y.1 = abs (due - y.2.2.2) ∧ y.2.1 = -(y.2.2.2 - y.2.2.1) :=
      fun y hy => hshape y (List.mem_cons_of_mem _ hy)
    have hxpair := (List.pairwise_cons.mp hpair).1
    have hxspair := (List.pairwise_cons.mp hpair).2
    rw [List.map_cons] at h
    simp only at h
    by_cases hspan : v - u ≤ 0
    · -- head segment skipped by the positive-span guard
      have hstep : findPlace b r ((u, v) :: xs.map fun y => y.2.2) =
          findPlace b r (xs.map fun y => y.2.2) := by
        simp only [findPlace]
        rw [if_pos hspan]
      rw [hstep] at h
      obtain ⟨hmem, hpos, hall⟩ := ih hxsshape hxspair fs fe h
      refine ⟨by rw [List.map_cons]; exact List.mem_cons_of_mem _ hmem, hpos, ?_⟩
      intro gs ge hg hgpos
      rw [List.map_cons] at hg
      simp only at hg
      rcases List.mem_cons.mp hg with hg1 | hg1
      · exfalso
        obtain ⟨rfl, rfl⟩ := Prod.mk.inj hg1
        omega
      · exact hall gs ge hg1 hgpos
    · -- head segment committed
      have hstep : findPlace b r ((u, v) :: xs.map fun y => y.2.2) = some (u, v) := by
        simp only [findPlace]
        rw [if_neg hspan, if_neg (by omega)]
      rw [hstep] at h
      obtain ⟨rfl, rfl⟩ := Prod.mk.inj (Option.some.inj h)
      refine ⟨by rw [List.map_cons]; exact List.mem_cons_self _ _, by omega, ?_⟩
      intro gs ge hg hgpos
      rw [List.map_cons] at hg
      simp only at hg
      rcases List.mem_cons.mp hg with hg1 | hg1
      · obtain ⟨rfl, rfl⟩ := Prod.mk.inj hg1
        exact ⟨le_refl _, fun _ => le_refl _⟩
      · obtain ⟨y, hy, hy22⟩ := List.mem_map.mp hg1
        have hyshape := hxsshape y hy
        have hle : scoreLe y (d, ns, u, v) := hxpair y hy
        unfold scoreLe pairLe at hle
        simp only at hle
        have hy2 : y.2.2.2 = ge := congrArg Prod.snd hy22
        have hy3 : y.2.2.1 = gs := congrArg Prod.fst hy22
        have hyA : y.1 = abs (due - ge) := by rw [hyshape.1, hy2]
        have hyS : y.2.1 = -(ge - gs) := by rw [hyshape.2, hy2, hy3]
        constructor
        · rcases hle with h1 | ⟨h1, _⟩
          · rw [hyA, hxshape.1] at h1
            exact le_of_lt h1
          · rw [hyA, hxshape.1] at h1
            exact le_of_eq h1
        · intro heq
          rcases hle with h1 | ⟨h1, h2⟩
          · rw [hyA, hxshape.1] at h1
            exact absurd heq (ne_of_lt h1)
          · have hns : y.2.1 ≤ ns := by
              rcases h2 with h3 | ⟨h3, _⟩
              · exact le_of_lt h3
              · exact le_of_eq h3
            rw [hyS, hxshape.2] at hns
            omega

/-- C4. In each placement iteration (with a positive block size and positive
remaining minutes), the committed segment is the first positive-length entry
of the reversed `choose_free_segments` ranking: it is a positive-length free
segment whose distance from its end to the task's due minute is maximal among
all positive-length free segments (with ties going to the smaller segment,
since the ranking prefers larger segments earlier); and a segment is committed
whenever some positive-length free segment exists. -/
theorem plan_segment_selection (free : List (Int × Int)) (due block rem : Int)
    (hb : 0 < block) (hr : 0 < rem) :
    (∀ fs fe, findPlace block rem (choose_free_segments free due).reverse = some (fs, fe) →
      ((fs, fe) ∈ free ∧ 0 < fe - fs ∧
       ∀ gs ge, (gs, ge) ∈ free → 0 < ge - gs →
         (abs (due - ge) ≤ abs (due - fe) ∧
          (abs (due - ge) = abs (due - fe) → fe - fs ≤ ge - gs)))) ∧
    ((∃ g ∈ free, 0 < g.2 - g.1) →
      (findPlace block rem (choose_free_segments free due).reverse).isSome) := by
  have hrev : (choose_free_segments free due).reverse =
      (List.insertionSort scoreLe
        (free.map fun p => (abs (due - p.2), -(p.2 - p.1), p))).reverse.map
        fun x => x.2.2 := by
    unfold choose_free_segments
    rw [List.map_reverse]
  have hshape : ∀ x ∈ (List.insertionSort scoreLe
      (free.map fun p => (abs (due - p.2), -(p.2 - p.1), p))).reverse,
      x.1 = abs (due - x.2.2.2) ∧ x.2.1 = -(x.2.2.2 - x.2.2.1) := by
    intro x hx
    exact choose_scored_shape x (List.mem_reverse.mp hx)
  have hpair : List.Pairwise (fun a c => scoreLe c a)
      (List.insertionSort scoreLe
        (free.map fun p => (abs (due - p.2), -(p.2 - p.1), p))).reverse :=
    List.pairwise_reverse.mpr (List.sorted_insertionSort scoreLe _)
  constructor
  · intro fs fe h
    rw [hrev] at h
    obtain ⟨hmem, hpos, hall⟩ := findPlace_rev_spec hb hr _ hshape hpair fs fe h
    rw [← hrev] at hmem
    have hmemfree : (fs, fe) ∈ free :=
      (choose_free_segments_perm free due).mem_iff.mp (List.mem_reverse.mp hmem)
    refine ⟨hmemfree, hpos, ?_⟩
    intro gs ge hg hgpos
    have hg' : (gs, ge) ∈ (choose_free_segments free due).reverse :=
      List.mem_reverse.mpr ((choose_free_segments_perm free due).mem_iff.mpr hg)
    rw [hrev] at hg'
    exact hall gs ge hg' hgpos
  · rintro ⟨g, hg, hgpos⟩
    refine findPlace_isSome hb hr ⟨g, ?_, hgpos⟩
    exact List.mem_reverse.mpr ((choose_free_segments_perm free due).mem_iff.mpr hg)

/-- Witness for C4 at a concrete input: two positive free segments, the one
farther from the due minute is committed. -/
theorem plan_segment_selection_witness :
    (0 : Int) < 40 ∧ (0 : Int) < 100 ∧
    ((40 : Int), (60 : Int)) ∈ [((40 : Int), (60 : Int)), (100, 300)] ∧
    (findPlace 40 100 (choose_free_segments [(40, 60), (100, 300)] 300).reverse).isSome := by
  have h := plan_segment_selection [(40, 60), (100, 300)] 300 40 100 (by decide) (by decide)
  refine ⟨by decide, by decide, by decide, h.2 ⟨(100, 300), by decide, by decide⟩⟩

/-! ### Invariants of the placement loop -/

lemma placed_block_disjoint {ws we : Int} {busy : List (Int × Int × String)}
    {blocks : List PlanBlock} {fs fe alloc : Int}
    (hseg : (fs, fe) ∈ subtract_intervals ws we
      (busy ++ blocks.map fun b => (b.start_min, b.end_min, b.label)))
    (halloc1 : 0 < alloc) (halloc2 : alloc ≤ fe - fs) :
    ∀ b ∈ blocks, b.start_min < b.end_min →
      (b.end_min ≤ fe - alloc ∨ fe ≤ b.start_min) := by
  intro b hb hbpos
  by_contra hcon
  push_neg at hcon
  obtain ⟨hc1, hc2⟩ := hcon
  have hbounds := subtract_bounds (fs, fe) hseg
  simp only at hbounds
  have hmem : (b.start_min, b.end_min, b.label) ∈
      busy ++ blocks.map fun b => (b.start_min, b.end_min, b.label) :=
    List.mem_append.mpr (Or.inr (List.mem_map.mpr ⟨b, hb, rfl⟩))
  have hdisj := subtract_disjoint_busy (fs, fe) hseg _ hmem (max (fe - alloc) b.start_min)
  simp only at hdisj
  apply hdisj <;> omega

lemma planIter_some_spec {ws bs bm t mg : Int} {busy : List (Int × Int × String)}
    {w : WorkItem} {rem we : Int} {blocks : List PlanBlock} {lines : List String}
    {rem1 we1 : Int} {blocks1 : List PlanBlock} {lines1 : List String}
    (h : planIter ws bs bm t mg busy w rem we blocks lines =
      some (rem1, we1, blocks1, lines1)) :
    rem1 < rem ∧ ws ≤ we1 ∧ we1 < we ∧
    (∃ ext, blocks1 = blocks ++ ext ∧
      ∀ b ∈ ext, ws ≤ b.start_min ∧ b.end_min ≤ we ∧ b.start_min < b.end_min) ∧
    ((∀ b ∈ blocks, b.start_min < b.end_min) → List.Pairwise studyDisjoint blocks →
      List.Pairwise studyDisjoint blocks1) := by
  simp only [planIter] at h
  split at h
  · exact absurd h (by simp)
  · split at h
    · exact absurd h (by simp)
    · next fs fe hfp =>
      obtain ⟨hq1, hrest⟩ := Prod.mk.inj (Option.some.inj h)
      obtain ⟨hq2, hrest2⟩ := Prod.mk.inj hrest
      obtain ⟨hq3, hq4⟩ := Prod.mk.inj hrest2
      have hpos := findPlace_pos hfp
      have hmemfree : (fs, fe) ∈ subtract_intervals ws we
          (busy ++ blocks.map fun b => (b.start_min, b.end_min, b.label)) := by
        have h1 := findPlace_mem hfp
        have h2 := List.mem_reverse.mp h1
        exact (choose_free_segments_perm _ _).mem_iff.mp h2
      have hbounds := subtract_bounds (fs, fe) hmemfree
      simp only at hbounds
      set alloc := min bs (min rem (fe - fs)) with halloc
      have halloc1 : 0 < alloc := hpos.2
      have halloc2 : alloc ≤ fe - fs := by
        rw [halloc]
        exact le_trans (min_le_right _ _) (min_le_right _ _)
      subst hq1 hq2 hq3 hq4
      refine ⟨by omega, by omega, by omega, ?_, ?_⟩
      · refine ⟨_, (List.append_assoc _ _ _), ?_⟩
        intro b hbmem
        rcases List.mem_append.mp hbmem with hb1 | hb1
        · rcases List.mem_singleton.mp hb1 with rfl
          simp only
          omega
        · split at hb1
          · next hcond =>
            rcases List.mem_singleton.mp hb1 with rfl
            simp only
            obtain ⟨hc1, hc2, hc3⟩ := hcond
            omega
          · simp at hb1
      · intro hallpos hpw
        have hstudydisj : ∀ b ∈ blocks, studyDisjoint b
            ⟨fe - alloc, fe, studyLabel w, "study", w.course, false⟩ := by
          intro b hb
          have hd := placed_block_disjoint hmemfree halloc1 halloc2 b hb (hallpos b hb)
          intro _ _
          simp only
          omega
        apply List.pairwise_append.mpr
        refine ⟨?_, ?_, ?_⟩
        · apply List.pairwise_append.mpr
          refine ⟨hpw, List.pairwise_singleton _ _, ?_⟩
          intro a ha b hb
          rcases List.mem_singleton.mp hb with rfl
          exact hstudydisj a ha
        · split
          · exact List.pairwise_singleton _ _
          · exact List.Pairwise.nil
        · intro a _ bb hbb
          split at hbb
          · rcases List.mem_singleton.mp hbb with rfl
            intro _ hk
            simp at hk
          · simp at hbb

lemma planLoopFuel_some_spec {ws bs bm t mg : Int} {busy : List (Int × Int × String)}
    {w : WorkItem} :
    ∀ (fuel : Nat) (rem we : Int) (blocks : List PlanBlock) (lines : List String)
      (res : List PlanBlock × List String × Int),
      planLoopFuel ws bs bm t mg busy w fuel rem we blocks lines = some res →
      ∃ ext, res.1 = blocks ++ ext ∧
        (∀ b ∈ ext, ws ≤ b.start_min ∧ b.end_min ≤ we ∧ b.start_min < b.end_min) ∧
        ((∀ b ∈ blocks, b.start_min < b.end_min) → List.Pairwise studyDisjoint blocks →
          List.Pairwise studyDisjoint res.1) := by
  intro fuel
  induction fuel with
  | zero => intro rem we blocks lines res h; simp [planLoopFuel] at h
  | succ n ih =>
    intro rem we blocks lines res h
    simp only [planLoopFuel] at h
    split at h
    · rcases Option.some.inj h with rfl
      exact ⟨[], by simp, by simp, fun _ hp => hp⟩
    · cases hit : planIter ws bs bm t mg busy w rem we blocks lines with
      | none =>
        rw [hit] at h
        rcases Option.some.inj h with rfl
        exact ⟨[], by simp, by simp, fun _ hp => hp⟩
      | some st4 =>
        obtain ⟨rem1, we1, blocks1, lines1⟩ := st4
        rw [hit] at h
        obtain ⟨h1, h2, h3, ⟨ext1, hext1, hbnd1⟩, hpw1⟩ := planIter_some_spec hit
        obtain ⟨ext2, hext2, hbnd2, hpw2⟩ := ih rem1 we1 blocks1 lines1 res h
        refine ⟨ext1 ++ ext2, ?_, ?_, ?_⟩
        · rw [hext2, hext1, List.append_assoc]
        · intro b hb
          rcases List.mem_append.mp hb with hb1 | hb1
          · exact hbnd1 b hb1
          · have hx := hbnd2 b hb1
            exact ⟨hx.1, by omega, hx.2.2⟩
        · intro hallpos hpw
          have hallpos1 : ∀ b ∈ blocks1, b.start_min < b.end_min := by
            intro b hb
            rw [hext1] at hb
            rcases List.mem_append.mp hb with hb1 | hb1
            · exact hallpos b hb1
            · exact (hbnd1 b hb1).2.2
          exact hpw2 hallpos1 (hpw1 hallpos hpw)

lemma planLoopFuel_isSome {ws bs bm t mg : Int} {busy : List (Int × Int × String)}
    {w : WorkItem} :
    ∀ (fuel : Nat) (rem we : Int) (blocks : List PlanBlock) (lines : List String),
      rem.toNat < fuel →
      (planLoopFuel ws bs bm t mg busy w fuel rem we blocks lines).isSome := by
  intro fuel
  induction fuel with
  | zero => intro rem we blocks lines h; omega
  | succ n ih =>
    intro rem we blocks lines hfuel
    simp only [planLoopFuel]
    split
    · rfl
    · next hrem =>
      cases hit : planIter ws bs bm t mg busy w rem we blocks lines with
      | none => rfl
      | some st4 =>
        obtain ⟨rem1, we1, blocks1, lines1⟩ := st4
        have h1 := (planIter_some_spec hit).1
        exact ih rem1 we1 blocks1 lines1 (by omega)

/-- C8. The task placement loop always halts: `remaining.toNat + 1` units of
fuel suffice for `planLoopFuel` to return a result on every input, because
every successful placement strictly decreases the remaining minutes; moreover
each successful `planIter` step strictly shrinks `window_end` while keeping it
at or above `window_start`, and an iteration that places nothing (or finds no
free segment) ends the loop immediately (`planIter` returns `none`, on which
`planLoopFuel` stops). -/
theorem plan_loop_terminates (ws bs bm t mg : Int) (busy : List (Int × Int × String))
    (w : WorkItem) (rem we : Int) (blocks : List PlanBlock) (lines : List String) :
    (∃ res, planLoopFuel ws bs bm t mg busy w (rem.toNat + 1) rem we blocks lines =
      some res) ∧
    (∀ rem1 we1 blocks1 lines1,
      planIter ws bs bm t mg busy w rem we blocks lines = some (rem1, we1, blocks1, lines1) →
      rem1 < rem ∧ ws ≤ we1 ∧ we1 < we) := by
  constructor
  · have h := @planLoopFuel_isSome ws bs bm t mg busy w (rem.toNat + 1) rem we blocks lines
      (by omega)
    exact Option.isSome_iff_exists.mp h
  · intro rem1 we1 blocks1 lines1 hit
    obtain ⟨h1, h2, h3, _, _⟩ := planIter_some_spec hit
    exact ⟨h1, h2, h3⟩

/-! ### Plan-level invariants -/

lemma mergeGo_bounds {lo hi : Int} :
    ∀ (l : List (Int × Int × String)) (cur : Int × Int × String),
      (lo ≤ cur.1 ∧ cur.2.1 ≤ hi ∧ cur.1 < cur.2.1) →
      (∀ b ∈ l, lo ≤ b.1 ∧ b.2.1 ≤ hi ∧ b.1 < b.2.1) →
      ∀ b ∈ mergeGo cur l, lo ≤ b.1 ∧ b.2.1 ≤ hi ∧ b.1 < b.2.1 := by
  intro l
  induction l with
  | nil =>
    intro cur hc _ b hb
    rcases List.mem_singleton.mp hb with rfl
    exact hc
  | cons hd rest ih =>
    intro cur hc hl b hb
    obtain ⟨cs, ce, cl⟩ := cur
    obtain ⟨s, e, lab⟩ := hd
    simp only at hc
    have hh := hl (s, e, lab) (List.mem_cons_self _ _)
    simp only at hh
    have htail : ∀ b ∈ rest, lo ≤ b.1 ∧ b.2.1 ≤ hi ∧ b.1 < b.2.1 :=
      fun b hb => hl b (List.mem_cons_of_mem _ hb)
    simp only [mergeGo] at hb
    split at hb
    · exact ih (cs, max ce e, cl)
        ⟨hc.1, show max ce e ≤ hi by omega, show cs < max ce e by omega⟩ htail b hb
    · rcases List.mem_cons.mp hb with rfl | hb1
      · exact hc
      · exact ih _ hh htail b hb1

lemma merge_intervals_bounds {lo hi : Int} {l : List (Int × Int × String)}
    (hl : ∀ b ∈ l, lo ≤ b.1 ∧ b.2.1 ≤ hi ∧ b.1 < b.2.1) :
    ∀ b ∈ merge_intervals l, lo ≤ b.1 ∧ b.2.1 ≤ hi ∧ b.1 < b.2.1 := by
  intro b hb
  unfold merge_intervals at hb
  have hl' : ∀ b ∈ List.insertionSort busyLe l, lo ≤ b.1 ∧ b.2.1 ≤ hi ∧ b.1 < b.2.1 :=
    fun b hb => hl b ((List.mem_insertionSort busyLe).mp hb)
  cases hsort : List.insertionSort busyLe l with
  | nil => rw [hsort] at hb; simp at hb
  | cons x xs =>
    rw [hsort] at hb hl'
    exact mergeGo_bounds xs x (hl' x (List.mem_cons_self _ _))
      (fun b hb => hl' b (List.mem_cons_of_mem _ hb)) b hb

lemma lectureAppend_foldl_spec :
    ∀ (l : List (Int × Int × String)) (acc : List PlanBlock × List String),
      ∃ ext, (l.foldl lectureAppend acc).1 = acc.1 ++ ext ∧
        (∀ b ∈ ext, ∃ tt ∈ l,
          b = ⟨tt.1, tt.2.1, tt.2.2, "lecture", stripLectureLabel tt.2.2, false⟩) ∧
        (List.Pairwise studyDisjoint acc.1 →
          List.Pairwise studyDisjoint (l.foldl lectureAppend acc).1) := by
  intro l
  induction l with
  | nil => intro acc; exact ⟨[], by simp, by simp, fun hp => hp⟩
  | cons t rest ih =>
    intro acc
    rw [List.foldl_cons]
    obtain ⟨ext2, hext2, hsrc2, hpw2⟩ := ih (lectureAppend acc t)
    have hstep : (lectureAppend acc t).1 = acc.1 ∨
        (lectureAppend acc t).1 = acc.1 ++
          [⟨t.1, t.2.1, t.2.2, "lecture", stripLectureLabel t.2.2, false⟩] := by
      unfold lectureAppend
      split
      · right; rfl
      · left; rfl
    have hpwstep : List.Pairwise studyDisjoint acc.1 →
        List.Pairwise studyDisjoint (lectureAppend acc t).1 := by
      intro hp
      rcases hstep with he | he <;> rw [he]
      · exact hp
      · apply List.pairwise_append.mpr
        refine ⟨hp, List.pairwise_singleton _ _, ?_⟩
        intro a _ b hb
        rcases List.mem_singleton.mp hb with rfl
        intro _ hk
        simp at hk
    rcases hstep with he | he
    · refine ⟨ext2, by rw [hext2, he], ?_, fun hp => hpw2 (hpwstep hp)⟩
      intro b hb
      obtain ⟨tt, htt, rfl⟩ := hsrc2 b hb
      exact ⟨tt, List.mem_cons_of_mem _ htt, rfl⟩
    · refine ⟨⟨t.1, t.2.1, t.2.2, "lecture", stripLectureLabel t.2.2, false⟩ :: ext2,
        ?_, ?_, fun hp => hpw2 (hpwstep hp)⟩
      · rw [hext2, he, List.append_assoc]
        rfl
      · intro b hb
        rcases List.mem_cons.mp hb with rfl | hb1
        · exact ⟨t, List.mem_cons_self _ _, rfl⟩
        · obtain ⟨tt, htt, rfl⟩ := hsrc2 b hb1
          exact ⟨tt, List.mem_cons_of_mem _ htt, rfl⟩

lemma processTask_blocks_spec (self : ScheduleEngine) (bs bm t mg : Int)
    (busy : List (Int × Int × String)) (sb : Int) (acc : List PlanBlock × List String)
    (w : WorkItem) :
    ∃ ext, (processTask self bs bm t mg busy sb acc w).1 = acc.1 ++ ext ∧
      (∀ b ∈ ext, sb ≤ b.start_min ∧ b.end_min ≤ self.day_end ∧ b.start_min < b.end_min) ∧
      ((∀ b ∈ acc.1, b.start_min < b.end_min) → List.Pairwise studyDisjoint acc.1 →
        List.Pairwise studyDisjoint (processTask self bs bm t mg busy sb acc w).1) := by
  simp only [processTask]
  split
  · exact ⟨[], by simp, by simp, fun _ hp => hp⟩
  · cases hloop : planLoopFuel sb bs bm t mg busy w (w.minutes_needed.toNat + 1)
        w.minutes_needed (min self.day_end w.due_min) acc.1 acc.2 with
    | none =>
      exact ⟨[], by simp, by simp, fun _ hp => hp⟩
    | some res =>
      obtain ⟨blocks, lines, rem⟩ := res
      obtain ⟨ext, hext, hbnd, hpw⟩ :=
        planLoopFuel_some_spec (w.minutes_needed.toNat + 1) w.minutes_needed
          (min self.day_end w.due_min) acc.1 acc.2 (blocks, lines, rem) hloop
      simp only at hext hpw
      refine ⟨ext, ?_, ?_, ?_⟩
      · show (if 0 < rem then (blocks, lines ++ [shortfallLine w rem])
            else (blocks, lines)).1 = acc.1 ++ ext
        split <;> exact hext
      · intro b hb
        have hx := hbnd b hb
        exact ⟨hx.1, le_trans hx.2.1 (min_le_left _ _), hx.2.2⟩
      · intro hpos hp
        show List.Pairwise studyDisjoint
          (if 0 < rem then (blocks, lines ++ [shortfallLine w rem]) else (blocks, lines)).1
        split <;> exact hpw hpos hp

lemma foldl_processTask_spec (self : ScheduleEngine) (bs bm t mg : Int)
    (busy : List (Int × Int × String)) (sb : Int) :
    ∀ (tasks : List WorkItem) (acc : List PlanBlock × List String),
      ∃ ext, (tasks.foldl (processTask self bs bm t mg busy sb) acc).1 = acc.1 ++ ext ∧
        (∀ b ∈ ext, sb ≤ b.start_min ∧ b.end_min ≤ self.day_end ∧ b.start_min < b.end_min) ∧
        ((∀ b ∈ acc.1, b.start_min < b.end_min) → List.Pairwise studyDisjoint acc.1 →
          List.Pairwise studyDisjoint
            (tasks.foldl (processTask self bs bm t mg busy sb) acc).1) := by
  intro tasks
  induction tasks with
  | nil => intro acc; exact ⟨[], by simp, by simp, fun _ hp => hp⟩
  | cons w rest ih =>
    intro acc
    rw [List.foldl_cons]
    obtain ⟨ext1, hext1, hbnd1, hpw1⟩ := processTask_blocks_spec self bs bm t mg busy sb acc w
    obtain ⟨ext2, hext2, hbnd2, hpw2⟩ := ih (processTask self bs bm t mg busy sb acc w)
    refine ⟨ext1 ++ ext2, ?_, ?_, ?_⟩
    · rw [hext2, hext1, List.append_assoc]
    · intro b hb
      rcases List.mem_append.mp hb with h | h
      · exact hbnd1 b h
      · exact hbnd2 b h
    · intro hpos hpw
      apply hpw2
      · intro b hb
        rw [hext1] at hb
        rcases List.mem_append.mp hb with h | h
        · exact hpos b h
        · exact (hbnd1 b h).2.2
      · exact hpw1 hpos hpw

lemma lectureAppend_foldl_pairwise (l : List (Int × Int × String))
    (acc : List PlanBlock × List String) (hp : List.Pairwise studyDisjoint acc.1) :
    List.Pairwise studyDisjoint (l.foldl lectureAppend acc).1 := by
  obtain ⟨_, _, _, hpw⟩ := lectureAppend_foldl_spec l acc
  exact hpw hp

lemma lectureAppend_foldl_mem (l : List (Int × Int × String))
    (acc : List PlanBlock × List String) :
    ∀ b ∈ (l.foldl lectureAppend acc).1, b ∈ acc.1 ∨ ∃ tt ∈ l,
      b = ⟨tt.1, tt.2.1, tt.2.2, "lecture", stripLectureLabel tt.2.2, false⟩ := by
  intro b hb
  obtain ⟨ext, hext, hsrc, _⟩ := lectureAppend_foldl_spec l acc
  rw [hext] at hb
  rcases List.mem_append.mp hb with h | h
  · exact Or.inl h
  · exact Or.inr (hsrc b h)

lemma foldl_processTask_pairwise (self : ScheduleEngine) (bs bm t mg : Int)
    (busy : List (Int × Int × String)) (sb : Int) (tasks : List WorkItem)
    (acc : List PlanBlock × List String)
    (hpos : ∀ b ∈ acc.1, b.start_min < b.end_min)
    (hp : List.Pairwise studyDisjoint acc.1) :
    List.Pairwise studyDisjoint (tasks.foldl (processTask self bs bm t mg busy sb) acc).1 := by
  obtain ⟨_, _, _, hpw⟩ := foldl_processTask_spec self bs bm t mg busy sb tasks acc
  exact hpw hpos hp

lemma foldl_processTask_bounds (self : ScheduleEngine) (bs bm t mg : Int)
    (busy : List (Int × Int × String)) (sb : Int) (tasks : List WorkItem)
    (acc : List PlanBlock × List String)
    (hacc : ∀ b ∈ acc.1, sb ≤ b.start_min ∧ b.end_min ≤ self.day_end ∧
      b.start_min < b.end_min) :
    ∀ b ∈ (tasks.foldl (processTask self bs bm t mg busy sb) acc).1,
      sb ≤ b.start_min ∧ b.end_min ≤ self.day_end ∧ b.start_min < b.end_min := by
  intro b hb
  obtain ⟨ext, hext, hbnd, _⟩ := foldl_processTask_spec self bs bm t mg busy sb tasks acc
  rw [hext] at hb
  rcases List.mem_append.mp hb with h | h
  · exact hacc b h
  · exact hbnd b h

lemma plan_busy_bounds (self : ScheduleEngine) (lectures : List Lecture) (buf : Int) :
    ∀ b ∈ merge_intervals (lectures.filterMap fun lec =>
        let s := max self.day_start (lec.start_min - buf)
        let e := min self.day_end (lec.end_min + buf)
        if s < e then some (s, e, "Lecture: " ++ lec.course) else none),
      self.day_start ≤ b.1 ∧ b.2.1 ≤ self.day_end ∧ b.1 < b.2.1 := by
  intro b hb
  refine merge_intervals_bounds ?_ b hb
  intro c hc
  obtain ⟨lec, _, hlec⟩ := List.mem_filterMap.mp hc
  simp only at hlec
  split at hlec
  · next hcond =>
    rcases Option.some.inj hlec with rfl
    exact ⟨le_max_left _ _, min_le_left _ _, hcond⟩
  · simp at hlec

/-- C1 (amended). For every configuration (no hypotheses needed), any two
`study` blocks in the block list returned by one call to `plan` have disjoint
`[start, end)` intervals: every study block is placed inside a free segment of
the window, which excludes all previously placed blocks. (The original claim
also asserted Study–Break and Break–Break disjointness, which the code
violates: a Break is clipped only at the window start and may overlap blocks
placed for earlier tasks — see the counterexample.) -/
theorem plan_study_blocks_disjoint (self : ScheduleEngine) (lectures : List Lecture)
    (work : List WorkItem) (block_size max_break : Int) (adaptive_breaks : Bool)
    (tired lecture_buffer_min min_gap_between_study : Int) :
    List.Pairwise studyDisjoint
      (self.plan lectures work block_size max_break adaptive_breaks tired
        lecture_buffer_min min_gap_between_study).1 := by
  simp only [ScheduleEngine.plan, plan_core]
  apply lectureAppend_foldl_pairwise
  apply foldl_processTask_pairwise
  · intro b hb
    simp at hb
  · simp

/-- Witnessing part of the C1 counterexample: on a valid configuration
(`dayStart = 0 < 300 = dayEnd`, `blockSize = 40 > 0`, `maxBreak = 0 ≥ 0`),
one call to `plan` emits a `study` block and a `break` block whose intervals
overlap (`Study: A — a` on `[0, 40)` and `Break` on `[27, 40)`), refuting
pairwise disjointness of Study/Break blocks. -/
theorem plan_study_break_overlap_cex :
    ∃ b1 ∈ ((⟨0, 300, none⟩ : ScheduleEngine).plan []
        [⟨"A", "a", 0, 40, 40, false, false⟩, ⟨"B", "b", 0, 100, 40, false, false⟩,
         ⟨"C", "c", 0, 300, 100, false, false⟩] 40 0 false 1 30 10).1,
    ∃ b2 ∈ ((⟨0, 300, none⟩ : ScheduleEngine).plan []
        [⟨"A", "a", 0, 40, 40, false, false⟩, ⟨"B", "b", 0, 100, 40, false, false⟩,
         ⟨"C", "c", 0, 300, 100, false, false⟩] 40 0 false 1 30 10).1,
    b1.kind = "study" ∧ b2.kind = "break" ∧
    b2.start_min < b1.end_min ∧ b1.start_min < b2.end_min := by
  decide

/-- C2 (amended). For every valid configuration (`dayStart < dayEnd`,
`blockSize > 0`, `maxBreak ≥ 0`), provided the horizon is not before the day
start (`dayStart ≤ now` whenever a `now` minute is supplied), every block
returned by `plan` satisfies `start < end` and `[start, end) ⊆
[dayStart, dayEnd)`. (The original claim allowed an arbitrary horizon; a
`now` minute before `dayStart` widens the scheduling window below `dayStart`
and blocks escape the day — see the counterexample.) -/
theorem plan_blocks_within_day (self : ScheduleEngine) (lectures : List Lecture)
    (work : List WorkItem) (block_size max_break : Int) (adaptive_breaks : Bool)
    (tired lecture_buffer_min min_gap_between_study : Int)
    (hday : self.day_start < self.day_end) (hblock : 0 < block_size)
    (hbreak : 0 ≤ max_break)
    (hnow : ∀ n, self.now_min = some n → self.day_start ≤ n) :
    ∀ b ∈ (self.plan lectures work block_size max_break adaptive_breaks tired
        lecture_buffer_min min_gap_between_study).1,
      self.day_start ≤ b.start_min ∧ b.end_min ≤ self.day_end ∧
      b.start_min < b.end_min := by
  intro b hb
  have hsb : self.day_start ≤ self.now_min.getD self.day_start := by
    cases hmn : self.now_min with
    | none => exact le_refl _
    | some n => exact hnow n hmn
  simp only [ScheduleEngine.plan, plan_core] at hb
  rcases lectureAppend_foldl_mem _ _ b hb with hb1 | ⟨tt, htt, rfl⟩
  · have hx := foldl_processTask_bounds _ _ _ _ _ _ _ _ _ (by intro c hc; simp at hc) b hb1
    exact ⟨le_trans hsb hx.1, hx.2.1, hx.2.2⟩
  · have htt' := (List.mem_insertionSort busyLe).mp htt
    have hx := plan_busy_bounds self lectures lecture_buffer_min tt htt'
    exact hx

/-- Counterexample for C2 as stated: with the valid configuration
`dayStart = 480 < 600 = dayEnd`, `blockSize = 60 > 0`, `maxBreak = 0 ≥ 0` and
the horizon `now = 0` (as `generate` supplies when scheduling the current day
early in the morning), `plan` returns a block whose `[start, end) = [440, 500)`
is not contained in `[dayStart, dayEnd) = [480, 600)`. -/
theorem plan_block_outside_day_cex :
    ∃ b ∈ ((⟨480, 600, some 0⟩ : ScheduleEngine).plan []
        [⟨"A", "t", 0, 500, 60, false, false⟩] 60 0 false 1 30 10).1,
      ¬((480 : Int) ≤ b.start_min) := by
  decide

/-- Witness for C2 at a concrete input (no lectures, one task, horizon at the
day start). -/
theorem plan_blocks_within_day_witness :
    (0 : Int) < 100 ∧ (0 : Int) < 30 ∧ (0 : Int) ≤ 0 ∧
    (∀ b ∈ ((⟨0, 100, none⟩ : ScheduleEngine).plan []
        [⟨"A", "t", 0, 100, 30, false, false⟩] 30 0 false 1 30 10).1,
      (0 : Int) ≤ b.start_min ∧ b.end_min ≤ 100 ∧ b.start_min < b.end_min) :=
  ⟨by decide, by decide, by decide,
    plan_blocks_within_day ⟨0, 100, none⟩ [] [⟨"A", "t", 0, 100, 30, false, false⟩]
      30 0 false 1 30 10 (by decide) (by decide) (by decide)
      (fun n h => by cases h)⟩

/-- C3. A scheduling call through `generate` whose configuration violates
`dayStart < dayEnd`, `blockSize > 0` or `maxBreak ≥ 0` fails with a
configuration error: the validation precedes engine construction and any call
to `plan`, and the error result carries no blocks. -/
theorem generate_config_error (day_start day_end block max_break tired : Int)
    (now_min : Option Int) (lectures : List Lecture) (tasks_today : List WorkItem)
    (h : day_end ≤ day_start ∨ block ≤ 0 ∨ max_break < 0) :
    ∃ msg, generate day_start day_end block max_break tired now_min lectures tasks_today =
      Except.error msg := by
  unfold generate
  split
  · exact ⟨_, rfl⟩
  · next hc =>
    split
    · exact ⟨_, rfl⟩
    · next hc2 =>
      exfalso
      omega

/-- Witness for C3 at the spec's Example 4 (`dayStart = 600`, `dayEnd = 480`). -/
theorem generate_config_error_witness :
    ∃ msg, generate 600 480 60 60 3 none [] [] = Except.error msg :=
  generate_config_error 600 480 60 60 3 none [] [] (Or.inl (by decide))

/-- C10. `plan` clamps `tired` into `[1, 10]` before any use and never fails:
a call with `tired < 1` returns exactly what the call with `tired = 1`
returns, and a call with `tired > 10` returns exactly what the call with
`tired = 10` returns. -/
theorem plan_tired_clamped (self : ScheduleEngine) (lectures : List Lecture)
    (work : List WorkItem) (block_size max_break : Int) (adaptive_breaks : Bool)
    (lecture_buffer_min min_gap_between_study tired : Int) :
    (tired < 1 →
      self.plan lectures work block_size max_break adaptive_breaks tired
        lecture_buffer_min min_gap_between_study =
      self.plan lectures work block_size max_break adaptive_breaks 1
        lecture_buffer_min min_gap_between_study) ∧
    (10 < tired →
      self.plan lectures work block_size max_break adaptive_breaks tired
        lecture_buffer_min min_gap_between_study =
      self.plan lectures work block_size max_break adaptive_breaks 10
        lecture_buffer_min min_gap_between_study) := by
  constructor
  · intro h
    have h1 : max 1 (min 10 tired) = max 1 (min 10 1) := by omega
    simp only [ScheduleEngine.plan, h1]
  · intro h
    have h1 : max 1 (min 10 tired) = max 1 (min 10 10) := by omega
    simp only [ScheduleEngine.plan, h1]

/-- Witness for C10 at concrete out-of-range `tired` values. -/
theorem plan_tired_clamped_witness :
    ((⟨0, 100, none⟩ : ScheduleEngine).plan [] [⟨"A", "t", 0, 100, 30, false, false⟩]
        30 0 false (-5) 30 10 =
      (⟨0, 100, none⟩ : ScheduleEngine).plan [] [⟨"A", "t", 0, 100, 30, false, false⟩]
        30 0 false 1 30 10) ∧
    ((⟨0, 100, none⟩ : ScheduleEngine).plan [] [⟨"A", "t", 0, 100, 30, false, false⟩]
        30 0 false 15 30 10 =
      (⟨0, 100, none⟩ : ScheduleEngine).plan [] [⟨"A", "t", 0, 100, 30, false, false⟩]
        30 0 false 10 30 10) :=
  ⟨(plan_tired_clamped ⟨0, 100, none⟩ [] [⟨"A", "t", 0, 100, 30, false, false⟩]
      30 0 false 30 10 (-5)).1 (by decide),
   (plan_tired_clamped ⟨0, 100, none⟩ [] [⟨"A", "t", 0, 100, 30, false, false⟩]
      30 0 false 30 10 15).2 (by decide)⟩

/-- C9. A task that cannot be fully placed is a soft condition, never an
error: with an empty window (`min dayEnd dueMinute ≤ windowStart`) the task
step leaves the placed blocks untouched and appends exactly one warning line
naming the task; in every case the blocks accumulated so far are preserved as
a prefix (no rollback); and when the placement loop ends with a positive
remainder, the step keeps the loop's blocks and appends one shortfall warning
line naming the task and its unmet minutes. Processing then continues with
the remaining tasks (the per-task step is folded over the task list). -/
theorem processTask_shortfall_spec (self : ScheduleEngine) (bs bm t mg : Int)
    (busy : List (Int × Int × String)) (sb : Int) (acc : List PlanBlock × List String)
    (w : WorkItem) :
    (min self.day_end w.due_min ≤ sb →
      processTask self bs bm t mg busy sb acc w = (acc.1, acc.2 ++ [noWindowLine w])) ∧
    (∃ ext, (processTask self bs bm t mg busy sb acc w).1 = acc.1 ++ ext) ∧
    (∀ blocks lines rem, ¬(min self.day_end w.due_min ≤ sb) →
      planLoopFuel sb bs bm t mg busy w (w.minutes_needed.toNat + 1) w.minutes_needed
        (min self.day_end w.due_min) acc.1 acc.2 = some (blocks, lines, rem) →
      0 < rem →
      processTask self bs bm t mg busy sb acc w = (blocks, lines ++ [shortfallLine w rem])) := by
  refine ⟨?_, ?_, ?_⟩
  · intro h
    simp only [processTask]
    rw [if_pos h]
  · obtain ⟨ext, hext, _, _⟩ := processTask_blocks_spec self bs bm t mg busy sb acc w
    exact ⟨ext, hext⟩
  · intro blocks lines rem h1 h2 h3
    simp only [processTask]
    rw [if_neg h1, h2]
    simp only
    rw [if_pos h3]

/-- Witness for C9: a task with an empty window yields only a warning line,
and a task with a 60-minute shortfall keeps its placed block and appends one
shortfall line. -/
theorem processTask_shortfall_spec_witness :
    (processTask ⟨0, 100, none⟩ 30 0 1 13 [] 0 ([], [])
        ⟨"A", "t", 0, 0, 30, false, false⟩ =
      ([], [noWindowLine ⟨"A", "t", 0, 0, 30, false, false⟩])) ∧
    (processTask ⟨0, 40, none⟩ 40 0 1 13 [] 0 ([], [])
        ⟨"C", "c", 0, 40, 100, false, false⟩ =
      ([⟨0, 40, "Study: C — c", "study", "C", false⟩],
       ["12:00 AM - 12:40 AM  Study: C — c",
        shortfallLine ⟨"C", "c", 0, 40, 100, false, false⟩ 60])) :=
  ⟨(processTask_shortfall_spec ⟨0, 100, none⟩ 30 0 1 13 [] 0 ([], [])
      ⟨"A", "t", 0, 0, 30, false, false⟩).1 (by decide),
   (processTask_shortfall_spec ⟨0, 40, none⟩ 40 0 1 13 [] 0 ([], [])
      ⟨"C", "c", 0, 40, 100, false, false⟩).2.2
     [⟨0, 40, "Study: C — c", "study", "C", false⟩]
     ["12:00 AM - 12:40 AM  Study: C — c"] 60 (by decide) (by decide) (by decide)⟩

/-! ### The multi-day share computation -/

lemma ceil_div_bounds {r p : Int} (hr : 0 < r) (hp : 0 < p) :
    r ≤ max 1 (Int.fdiv (r + p - 1) p) * p ∧
    (max 1 (Int.fdiv (r + p - 1) p) - 1) * p < r := by
  rw [Int.fdiv_eq_ediv _ (by omega : (0 : Int) ≤ p)]
  have h1 := Int.ediv_add_emod (r + p - 1) p
  have h2 := Int.emod_nonneg (r + p - 1) (by omega : p ≠ 0)
  have h3 := Int.emod_lt_of_pos (r + p - 1) hp
  set q := (r + p - 1) / p with hq
  set m := (r + p - 1) % p with hm
  have hq1 : 1 ≤ q := by nlinarith
  rw [max_eq_right hq1]
  constructor <;> nlinarith

/-- C5. The per-day share computation of `_get_tasks_for_day`, for an
unprepared item, with `prior` the summed durations of previously committed
study blocks labeled exactly `"Study: {course} — {title}"` on days strictly
before today: with `remaining = max 0 (minutesNeeded − prior)`, nothing is
produced when `remaining = 0`; an overdue item yields `share = remaining` due
at 23:59; an item due today yields `share = remaining` at its own due minute;
an item due `d > 0` days ahead yields `share = ⌈remaining / parts⌉` (`parts =
2` when `d = 1`, else `parts = d`), due at 23:59, where the ceiling is
characterized by `remaining ≤ share·parts` and `(share−1)·parts < remaining`. -/
theorem share_for_day_spec (days : List (Int × List PlanBlock)) (cur : Int)
    (w : WorkItem) (hprep : w.prepared = false) :
    (max 0 (w.minutes_needed - previously_planned_minutes days cur w.course w.title) = 0 →
      task_share_for_day days cur w = none) ∧
    (∀ r, r = max 0 (w.minutes_needed - previously_planned_minutes days cur w.course w.title) →
      r ≠ 0 →
      ((w.date_num - cur < 0 →
        task_share_for_day days cur w =
          some ⟨w.course, w.title, w.date_num, 23 * 60 + 59, r, false, w.repeat_weekly⟩) ∧
       (w.date_num - cur = 0 →
        task_share_for_day days cur w =
          some ⟨w.course, w.title, w.date_num, w.due_min, r, false, w.repeat_weekly⟩) ∧
       (0 < w.date_num - cur →
        ∃ share, task_share_for_day days cur w =
            some ⟨w.course, w.title, w.date_num, 23 * 60 + 59, share, false, w.repeat_weekly⟩ ∧
          r ≤ share * (if w.date_num - cur = 1 then 2 else w.date_num - cur) ∧
          (share - 1) * (if w.date_num - cur = 1 then 2 else w.date_num - cur) < r))) := by
  constructor
  · intro h0
    simp only [task_share_for_day, hprep, Bool.false_eq_true, if_false]
    rw [if_pos h0]
  · intro r hr hr0
    refine ⟨?_, ?_, ?_⟩
    · intro hd
      simp only [task_share_for_day, hprep, Bool.false_eq_true, if_false]
      rw [if_neg (by omega : ¬(max 0 (w.minutes_needed -
        previously_planned_minutes days cur w.course w.title) = 0)), if_pos hd, ← hr]
    · intro hd
      simp only [task_share_for_day, hprep, Bool.false_eq_true, if_false]
      rw [if_neg (by omega : ¬(max 0 (w.minutes_needed -
        previously_planned_minutes days cur w.course w.title) = 0)),
        if_neg (by omega : ¬(w.date_num - cur < 0)), if_pos hd, ← hr]
    · intro hd
      have hrpos : 0 < r := by omega
      have hparts : 0 < (if w.date_num - cur = 1 then 2 else w.date_num - cur) := by
        split <;> omega
      refine ⟨max 1 (Int.fdiv (r + (if w.date_num - cur = 1 then 2 else w.date_num - cur) - 1)
        (if w.date_num - cur = 1 then 2 else w.date_num - cur)), ?_,
        (ceil_div_bounds hrpos hparts).1, (ceil_div_bounds hrpos hparts).2⟩
      simp only [task_share_for_day, hprep, Bool.false_eq_true, if_false]
      rw [if_neg (by omega : ¬(max 0 (w.minutes_needed -
        previously_planned_minutes days cur w.course w.title) = 0)),
        if_neg (by omega : ¬(w.date_num - cur < 0)),
        if_neg (by omega : ¬(w.date_num - cur = 0)), ← hr]

/-- Witness for C5 at the spec's Example 2 (`minutesNeeded = 100`, due three
days ahead, no history: share `ceil (100 / 3) = 34`, due at 23:59). -/
theorem share_for_day_spec_witness :
    (⟨"M", "hw", 3, 600, 100, false, false⟩ : WorkItem).prepared = false ∧
    (∃ share, task_share_for_day [] 0 ⟨"M", "hw", 3, 600, 100, false, false⟩ =
        some ⟨"M", "hw", 3, 23 * 60 + 59, share, false, false⟩ ∧
      (100 : Int) ≤ share * 3 ∧ (share - 1) * 3 < 100) := by
  refine ⟨rfl, ?_⟩
  have h := ((share_for_day_spec [] 0 ⟨"M", "hw", 3, 600, 100, false, false⟩ rfl).2
    100 (by decide) (by decide)).2.2 (by decide)
  obtain ⟨share, h1, h2, h3⟩ := h
  exact ⟨share, h1, by simpa using h2, by simpa using h3⟩

/-! ### The break sizer -/

lemma truncDiv_mono40 {p1 p2 : Int} (h : p1 ≤ p2) : truncDiv p1 40 ≤ truncDiv p2 40 := by
  unfold truncDiv
  split <;> split <;> omega

/-- C7. The break-sizing function `compute_adaptive_break` is monotone
non-decreasing in `slack = max 0 (windowEnd − currentEnd − remainingAfter)`
for fixed `tired`, `maxBreak` and floor; monotone non-decreasing in `tired`
over `[1, 10]` for fixed slack, `maxBreak` and floor; and its result is never
below the floor argument `min_gap_between_study`. -/
theorem compute_adaptive_break_spec :
    (∀ ra1 ce1 we1 ra2 ce2 we2 mb t g,
      max 0 (we1 - ce1 - ra1) ≤ max 0 (we2 - ce2 - ra2) →
      compute_adaptive_break ra1 ce1 we1 mb t g ≤ compute_adaptive_break ra2 ce2 we2 mb t g) ∧
    (∀ ra ce we mb t1 t2 g, 1 ≤ t1 → t1 ≤ t2 → t2 ≤ 10 →
      compute_adaptive_break ra ce we mb t1 g ≤ compute_adaptive_break ra ce we mb t2 g) ∧
    (∀ ra ce we mb t g, g ≤ compute_adaptive_break ra ce we mb t g) := by
  refine ⟨?_, ?_, ?_⟩
  · intro ra1 ce1 we1 ra2 ce2 we2 mb t g hs
    simp only [compute_adaptive_break]
    rw [Int.fdiv_eq_ediv _ (by omega : (0 : Int) ≤ 3),
      Int.fdiv_eq_ediv _ (by omega : (0 : Int) ≤ 3)]
    generalize truncDiv (mb * (40 + 3 * t)) 40 = M
    split_ifs <;> omega
  · intro ra ce we mb t1 t2 g ht1 ht12 ht2
    simp only [compute_adaptive_break]
    rw [Int.fdiv_eq_ediv _ (by omega : (0 : Int) ≤ 3)]
    have hM : truncDiv (mb * (40 + 3 * t1)) 40 ≤ truncDiv (mb * (40 + 3 * t2)) 40 ∨
        (truncDiv (mb * (40 + 3 * t1)) 40 ≤ 0 ∧ truncDiv (mb * (40 + 3 * t2)) 40 ≤ 0) := by
      rcases le_or_lt 0 mb with hmb | hmb
      · left
        exact truncDiv_mono40 (mul_le_mul_of_nonneg_left (by omega) hmb)
      · right
        have hp1 : mb * (40 + 3 * t1) ≤ 0 :=
          mul_nonpos_iff.mpr (Or.inr ⟨le_of_lt hmb, by omega⟩)
        have hp2 : mb * (40 + 3 * t2) ≤ 0 :=
          mul_nonpos_iff.mpr (Or.inr ⟨le_of_lt hmb, by omega⟩)
        constructor <;> · unfold truncDiv; split <;> omega
    generalize truncDiv (mb * (40 + 3 * t1)) 40 = M1 at hM
    generalize truncDiv (mb * (40 + 3 * t2)) 40 = M2 at hM
    split_ifs <;> omega
  · intro ra ce we mb t g
    simp only [compute_adaptive_break]
    generalize truncDiv (mb * (40 + 3 * t)) 40 = M
    generalize Int.fdiv (max 0 (we - ce - ra)) 3 = q
    split_ifs <;> omega

/-- Witness for C7: more slack yields a longer break, more fatigue yields a
longer break, and the result never drops below the floor. -/
theorem compute_adaptive_break_spec_witness :
    (max (0 : Int) (100 - 0 - 0) ≤ max 0 (200 - 0 - 0) ∧
      compute_adaptive_break 0 0 100 30 2 10 ≤ compute_adaptive_break 0 0 200 30 2 10) ∧
    ((1 : Int) ≤ 2 ∧ (2 : Int) ≤ 9 ∧ (9 : Int) ≤ 10 ∧
      compute_adaptive_break 0 0 100 30 2 10 ≤ compute_adaptive_break 0 0 100 30 9 10) ∧
    (10 : Int) ≤ compute_adaptive_break 0 0 100 30 2 10 :=
  ⟨⟨by decide, compute_adaptive_break_spec.1 0 0 100 0 0 200 30 2 10 (by decide)⟩,
   ⟨by decide, by decide, by decide,
    compute_adaptive_break_spec.2.1 0 0 100 30 2 9 10 (by decide) (by decide) (by decide)⟩,
   compute_adaptive_break_spec.2.2 0 0 100 30 2 10⟩

/-- Witness for C8: the loop halts on a concrete task within
`remaining + 1` iterations, and the concrete successful placement step
shrinks the window from `40` to `0` while staying at or above the window
start `0`. -/
theorem plan_loop_terminates_witness :
    (∃ res, planLoopFuel 0 40 0 1 13 [] ⟨"C", "c", 0, 40, 100, false, false⟩
      ((100 : Int).toNat + 1) 100 40 [] [] = some res) ∧
    ((60 : Int) < 100 ∧ (0 : Int) ≤ 0 ∧ (0 : Int) < 40) :=
  ⟨(plan_loop_terminates 0 40 0 1 13 [] ⟨"C", "c", 0, 40, 100, false, false⟩
      100 40 [] []).1,
   (plan_loop_terminates 0 40 0 1 13 [] ⟨"C", "c", 0, 40, 100, false, false⟩
      100 40 [] []).2 60 0 [⟨0, 40, "Study: C — c", "study", "C", false⟩]
     ["12:00 AM - 12:40 AM  Study: C — c"] (by decide)⟩
